import Mathlib

/-!
# Verification of the sensor-statistics windowed aggregation pipeline

Shallow embedding of `src/main.py`: an Apache Beam pipeline that assigns
timestamped sensor records to fixed 60-second event-time windows, combines
the values of each (key, window) pair with `SensorStatisticsCombineFn`,
and emits one statistics record per (key, window) after the watermark
passes the window (AfterWatermark trigger, DISCARDING accumulation).

Modelling conventions:
* Python floats are idealised as exact arithmetic: input values are the
  rational numbers `ℚ`, and the statistics computed by numpy/scipy are
  modelled over `ℝ` (square roots are irrational in general).
* IEEE special values produced by the statistics code (NaN from `0/0`,
  `+inf` from `x/0` with `x > 0`) are modelled by the `PFloat` type.
* The windowing / watermark / trigger machinery is Apache Beam library
  code configured (but not defined) in `src/main.py`; it is modelled from
  the spec as a small state machine (`PState`, `stepEvent`).
-/

namespace SensorPipeline

/-- An idealised floating-point value: a finite real, one of the two
infinities, or NaN. -/
inductive PFloat where
  | fin : ℝ → PFloat
  | posInf : PFloat
  | negInf : PFloat
  | nan : PFloat

/-- Squaring an idealised float (`x ** 2` in the source): both infinities
square to `+inf`, NaN stays NaN. -/
def PFloat.sq : PFloat → PFloat
  | .fin r => .fin (r ^ 2)
  | .posInf => .posInf
  | .negInf => .posInf
  | .nan => .nan

/-- A `PFloat` is a finite number. -/
def PFloat.IsFinite : PFloat → Prop
  | .fin _ => True
  | _ => False

/-- The record returned by `SensorStatisticsCombineFn.extract_output`
(`src/main.py` lines 41-59): the dictionary with keys
`count`, `mean`, `std_dev`, `variance`. -/
structure Stats where
  count : ℕ
  mean : PFloat
  std_dev : PFloat
  variance : PFloat

/-- `SensorStatisticsCombineFn.create_accumulator` (`src/main.py` line 19):
the empty list of buffered values. -/
def create_accumulator : List ℚ := []

/-- `SensorStatisticsCombineFn.add_input` (`src/main.py` line 24):
`accumulator.append(element)`. -/
def add_input (accumulator : List ℚ) (element : ℚ) : List ℚ :=
  accumulator ++ [element]

/-- `SensorStatisticsCombineFn.merge_accumulators` (`src/main.py` line 29):
start from the empty list and `extend` with each accumulator in turn. -/
def merge_accumulators (accumulators : List (List ℚ)) : List ℚ :=
  accumulators.foldl (fun merged acc => merged ++ acc) []

/-- `np.mean(values)`: the sum of the buffered values divided by their
number (exact rational arithmetic). -/
def meanQ (acc : List ℚ) : ℚ :=
  acc.sum / (acc.length : ℚ)

/-- The population variance of the buffered values (`ddof = 0`), the square
of the numerator of `scipy.stats.variation`. -/
def popVarQ (acc : List ℚ) : ℚ :=
  ((acc.map fun x => (x - meanQ acc) ^ 2).sum) / (acc.length : ℚ)

/-- The sample variance of the buffered values (`ddof = 1`), the square of
`scipy.stats.tstd`; only meaningful for `2 ≤ acc.length` (the `n = 1` case
is NaN in the source and is branched on before this value is used). -/
def sampleVarQ (acc : List ℚ) : ℚ :=
  ((acc.map fun x => (x - meanQ acc) ^ 2).sum) / ((acc.length : ℚ) - 1)

/-- `scipy.stats.variation(values)`: population standard deviation divided
by the mean.  When the mean is zero the float division produces NaN
(if the standard deviation is also zero, i.e. `0.0/0.0`) or `+inf`
(`s/0.0` with `s > 0`). -/
noncomputable def variationF (acc : List ℚ) : PFloat :=
  if meanQ acc = 0 then
    (if popVarQ acc = 0 then .nan else .posInf)
  else
    .fin (Real.sqrt (popVarQ acc) / (meanQ acc : ℝ))

/-- `scipy.stats.tstd(values)`: the sample standard deviation
`sqrt(Σ (x - mean)² / (n - 1))`; for a single value the internal `0.0/0.0`
yields NaN. -/
noncomputable def tstdF (acc : List ℚ) : PFloat :=
  if acc.length = 1 then .nan else .fin (Real.sqrt (sampleVarQ acc))

/-- `SensorStatisticsCombineFn.extract_output` (`src/main.py` lines 36-59):
on the empty accumulator return the NaN-sentinel record with `count = 0`
(no division is attempted); otherwise return count, mean, `tstd`, and the
square of the coefficient of variation. -/
noncomputable def extract_output (accumulator : List ℚ) : Stats :=
  if accumulator.length = 0 then
    { count := 0, mean := .nan, std_dev := .nan, variance := .nan }
  else
    { count := accumulator.length
      mean := .fin (meanQ accumulator : ℝ)
      std_dev := tstdF accumulator
      variance := (variationF accumulator).sq }

/-! ## The windowing engine

`run_pipeline` (`src/main.py` lines 98-102) configures
`beam.WindowInto(beam.window.FixedWindows(60), trigger=AfterWatermark(),
accumulation_mode=AccumulationMode.DISCARDING)`.  The window assigner,
watermark tracker, accumulator store and trigger engine themselves are
Apache Beam library code; they are modelled below from the spec
(sections 3, 4.1-4.6). -/

/-- A fixed event-time window, the half-open interval `[start, stop)`
(the spec's `end` field is called `stop` here because `end` is a Lean
keyword). -/
structure Window where
  start : Int
  stop : Int
deriving DecidableEq

/-- Modelled from the spec: the window-size configuration of
`run_pipeline`, `FixedWindows(60)`. -/
def windowSizeSeconds : Int := 60

/-- Modelled from the spec: the Window Assigner's
`assign(event_time, window_size) -> Window` with
`start = floor(event_time / windowSize) * windowSize` and
`end = start + windowSize` (Beam's `FixedWindows` with zero offset). -/
def assign (event_time window_size : Int) : Window :=
  { start := (Int.fdiv event_time window_size) * window_size
    stop := (Int.fdiv event_time window_size) * window_size + window_size }

/-- Modelled from the spec: the Watermark Tracker's value, an integer or
one of the two infinities (`-inf` before any record, `+inf` after
end-of-stream). -/
inductive Time where
  | negInf : Time
  | fin : Int → Time
  | posInf : Time
deriving DecidableEq

/-- Boolean order on watermark values. -/
def Time.ble : Time → Time → Bool
  | .negInf, _ => true
  | .fin _, .negInf => false
  | .fin a, .fin b => decide (a ≤ b)
  | .fin _, .posInf => true
  | .posInf, .posInf => true
  | .posInf, _ => false

/-- Modelled from the spec: `advance(candidate)` sets
`watermark = max(watermark, candidate)`. -/
def Time.max (a b : Time) : Time :=
  if a.ble b then b else a

/-- Modelled from the spec: an input event of the pipeline — either a
record `(key, value, event_time)` from the source or a watermark advance
(`advanceToInfinity` is `advance Time.posInf`). -/
inductive Event where
  | record : String → ℚ → Int → Event
  | advance : Time → Event

/-- Modelled from the spec: the engine state — watermark, the per-(key,
window) accumulator store (an association list), the set of fired
(key, window) pairs, the log of emitted results, and the late-drop
counter.  `R` is the emitted result type (the extract output). -/
structure PState (R : Type) where
  wm : Time
  accs : List ((String × Window) × List ℚ)
  fired : List (String × Window)
  emitted : List (String × Window × R)
  lateDropped : ℕ

/-- Modelled from the spec: `addRecord` on the Accumulator Store — append
the value to the existing accumulator for the key, or create one
(`create` then `add`) when none exists. -/
def addToStore (accs : List ((String × Window) × List ℚ))
    (kw : String × Window) (v : ℚ) : List ((String × Window) × List ℚ) :=
  match accs with
  | [] => [(kw, add_input create_accumulator v)]
  | e :: rest =>
      if e.1 = kw then (e.1, add_input e.2 v) :: rest
      else e :: addToStore rest kw v

/-- Is the store entry eligible for firing: `window.end <= watermark`. -/
def eligibleB (wm : Time) (e : (String × Window) × List ℚ) : Bool :=
  Time.ble (.fin e.1.2.stop) wm

/-- Modelled from the spec: one engine step.  A record is assigned its
window; if that (key, window) has already fired the record is dropped
(`LateRecordDropped`), otherwise it is added to the store.  A watermark
advance takes the max with the candidate, then fires (emits via `extract`
and discards) every store entry whose window end is at or below the new
watermark. -/
def stepEvent {R : Type} (extract : List ℚ → R) (size : Int)
    (σ : PState R) : Event → PState R
  | .record k v t =>
      let w := assign t size
      if (k, w) ∈ σ.fired then
        { σ with lateDropped := σ.lateDropped + 1 }
      else
        { σ with accs := addToStore σ.accs (k, w) v }
  | .advance c =>
      let wm := σ.wm.max c
      let elig := σ.accs.filter (eligibleB wm)
      { wm := wm
        accs := σ.accs.filter (fun e => !(eligibleB wm e))
        fired := σ.fired ++ elig.map Prod.fst
        emitted := σ.emitted ++ elig.map (fun e => (e.1.1, e.1.2, extract e.2))
        lateDropped := σ.lateDropped }

/-- Modelled from the spec: the initial state — watermark `-inf`, empty
store, nothing fired, nothing emitted. -/
def initState (R : Type) : PState R :=
  { wm := .negInf, accs := [], fired := [], emitted := [], lateDropped := 0 }

/-- Modelled from the spec: run the engine over a sequence of events. -/
def runEngine {R : Type} (extract : List ℚ → R) (size : Int)
    (events : List Event) : PState R :=
  events.foldl (stepEvent extract size) (initState R)

/-- The pipeline of `run_pipeline`: the engine instantiated with
`SensorStatisticsCombineFn.extract_output` and 60-second windows. -/
noncomputable def runMain (events : List Event) : PState Stats :=
  runEngine extract_output windowSizeSeconds events

/-- The (key, window) pair of an emitted result. -/
def emittedKeys {R : Type} (σ : PState R) : List (String × Window) :=
  σ.emitted.map (fun e => (e.1, e.2.1))

/-- The engine invariant behind exactly-once firing: the emission log and
the fired set list the same (key, window) pairs in the same order, no
(key, window) pair fired twice, the store keys are distinct, and no store
entry belongs to an already-fired (key, window). -/
def EngineInv {R : Type} (σ : PState R) : Prop :=
  emittedKeys σ = σ.fired ∧
  σ.fired.Nodup ∧
  (σ.accs.map Prod.fst).Nodup ∧
  ∀ kw ∈ σ.accs.map Prod.fst, kw ∉ σ.fired

/-! ## Theorems -/

theorem Time.ble_refl (a : Time) : a.ble a = true := by
  cases a <;> simp [Time.ble]

theorem Time.ble_trans {a b c : Time} (h1 : a.ble b = true)
    (h2 : b.ble c = true) : a.ble c = true := by
  cases a <;> cases b <;> cases c <;> simp_all [Time.ble]
  all_goals omega

theorem Time.ble_antisymm {a b : Time} (h1 : a.ble b = true)
    (h2 : b.ble a = true) : a = b := by
  cases a <;> cases b <;> simp_all [Time.ble]
  all_goals omega

theorem Time.ble_max_left (a b : Time) : a.ble (a.max b) = true := by
  unfold Time.max
  split
  · assumption
  · exact Time.ble_refl a

theorem Time.max_eq_left {a b : Time} (h : b.ble a = true) : a.max b = a := by
  unfold Time.max
  split
  · exact (Time.ble_antisymm (by assumption) h).symm
  · rfl

/-- C2: for every integer event time `t` and positive window size `s`,
window assignment maps `t` to exactly one window: its start is
`floor(t / s) * s`, its end is `start + s`, `t` lies in `[start, end)`,
the grid index containing `t` is unique, and two event times with equal
`floor(t / s)` are assigned the same window. -/
theorem assign_maps_to_unique_window (t s : Int) (hs : 0 < s) :
    (assign t s).start = Int.fdiv t s * s ∧
    (assign t s).stop = (assign t s).start + s ∧
    (assign t s).start ≤ t ∧ t < (assign t s).stop ∧
    (∀ k : Int, k * s ≤ t → t < k * s + s → k = Int.fdiv t s) ∧
    (∀ t1 t2 : Int, t1 < t2 → Int.fdiv t1 s = Int.fdiv t2 s →
      assign t1 s = assign t2 s) := by
  have hfm := Int.fmod_add_fdiv t s
  have hge : 0 ≤ Int.fmod t s := Int.fmod_nonneg' t hs
  have hlt : Int.fmod t s < s := Int.fmod_lt_of_pos t hs
  have h1 : Int.fdiv t s * s ≤ t := by nlinarith [hfm]
  have h2 : t < Int.fdiv t s * s + s := by nlinarith [hfm]
  refine ⟨rfl, rfl, h1, h2, ?_, ?_⟩
  · intro k hk1 hk2
    by_contra hne
    rcases lt_or_gt_of_ne hne with h | h
    · have hk3 : k + 1 ≤ Int.fdiv t s := h
      have : (k + 1) * s ≤ Int.fdiv t s * s :=
        mul_le_mul_of_nonneg_right hk3 (le_of_lt hs)
      nlinarith
    · have hk3 : Int.fdiv t s + 1 ≤ k := h
      have : (Int.fdiv t s + 1) * s ≤ k * s :=
        mul_le_mul_of_nonneg_right hk3 (le_of_lt hs)
      nlinarith
  · intro t1 t2 _ heq
    simp [assign, heq]

/-- Witness for `assign_maps_to_unique_window` at `t = 75`, `s = 60`. -/
theorem assign_maps_to_unique_window_witness :
    (0 : Int) < 60 ∧
    ((assign 75 60).start = Int.fdiv 75 60 * 60 ∧
     (assign 75 60).stop = (assign 75 60).start + 60 ∧
     (assign 75 60).start ≤ 75 ∧ (75 : Int) < (assign 75 60).stop ∧
     (∀ k : Int, k * 60 ≤ 75 → (75 : Int) < k * 60 + 60 → k = Int.fdiv 75 60) ∧
     (∀ t1 t2 : Int, t1 < t2 → Int.fdiv t1 60 = Int.fdiv t2 60 →
       assign t1 60 = assign t2 60)) :=
  ⟨by decide, assign_maps_to_unique_window 75 60 (by decide)⟩

/-- C3: every `advance` call sets the watermark to
`max(watermark, candidate)`; across any sequence of engine events from any
state the watermark never decreases; and an `advance` whose candidate is
at or below the current watermark leaves the watermark unchanged. -/
theorem watermark_monotone :
    (∀ (σ : PState Stats) (c : Time),
      (stepEvent extract_output windowSizeSeconds σ (.advance c)).wm =
        σ.wm.max c) ∧
    (∀ (σ : PState Stats) (events : List Event),
      Time.ble σ.wm
        ((events.foldl (stepEvent extract_output windowSizeSeconds) σ).wm) =
        true) ∧
    (∀ (σ : PState Stats) (c : Time), Time.ble c σ.wm = true →
      (stepEvent extract_output windowSizeSeconds σ (.advance c)).wm = σ.wm) := by
  have hstep : ∀ (σ : PState Stats) (e : Event),
      Time.ble σ.wm (stepEvent extract_output windowSizeSeconds σ e).wm = true := by
    intro σ e
    cases e with
    | record k v t =>
        simp only [stepEvent]
        split
        · exact Time.ble_refl _
        · exact Time.ble_refl _
    | advance c => exact Time.ble_max_left σ.wm c
  refine ⟨fun σ c => rfl, ?_, fun σ c h => Time.max_eq_left h⟩
  intro σ events
  induction events generalizing σ with
  | nil => exact Time.ble_refl _
  | cons e rest ih =>
      exact Time.ble_trans (hstep σ e)
        (ih (stepEvent extract_output windowSizeSeconds σ e))

/-- Witness for `watermark_monotone`: advancing with candidate 3 below the
current watermark 5 is a no-op. -/
theorem watermark_monotone_witness :
    Time.ble (Time.fin 3) (Time.fin 5) = true ∧
    (stepEvent extract_output windowSizeSeconds
      { wm := Time.fin 5, accs := [], fired := [], emitted := [],
        lateDropped := 0 }
      (.advance (Time.fin 3))).wm = Time.fin 5 :=
  ⟨by decide,
   watermark_monotone.2.2
     { wm := Time.fin 5, accs := [], fired := [], emitted := [],
       lateDropped := 0 }
     (Time.fin 3) (by decide)⟩

theorem addToStore_keys (accs : List ((String × Window) × List ℚ))
    (kw : String × Window) (v : ℚ) :
    (addToStore accs kw v).map Prod.fst =
      if kw ∈ accs.map Prod.fst then accs.map Prod.fst
      else accs.map Prod.fst ++ [kw] := by
  induction accs with
  | nil => simp [addToStore]
  | cons e rest ih =>
      simp only [addToStore]
      by_cases he : e.1 = kw
      · simp [he]
      · simp only [if_neg he, List.map_cons, ih, List.mem_cons]
        by_cases hm : kw ∈ rest.map Prod.fst
        · simp [hm]
        · simp [hm, Ne.symm he]

theorem eligibleB_congr {wm : Time} {e1 e2 : (String × Window) × List ℚ}
    (h : e1.1 = e2.1) : eligibleB wm e1 = eligibleB wm e2 := by
  simp [eligibleB, h]

theorem stepEvent_inv {R : Type} (extract : List ℚ → R) (size : Int)
    (σ : PState R) (e : Event) (h : EngineInv σ) :
    EngineInv (stepEvent extract size σ e) := by
  obtain ⟨hem, hfn, han, hdisj⟩ := h
  cases e with
  | record k v t =>
      simp only [stepEvent]
      split
      · exact ⟨hem, hfn, han, hdisj⟩
      · rename_i hnf
        refine ⟨hem, hfn, ?_, ?_⟩
        · show (addToStore σ.accs (k, assign t size) v).map Prod.fst |>.Nodup
          rw [addToStore_keys]
          split
          · exact han
          · rename_i hnm
            simp [List.nodup_append, han, hnm]
        · show ∀ kw ∈ (addToStore σ.accs (k, assign t size) v).map Prod.fst,
            kw ∉ σ.fired
          rw [addToStore_keys]
          split
          · exact hdisj
          · intro kw hkw
            rcases List.mem_append.mp hkw with h1 | h1
            · exact hdisj kw h1
            · rw [List.mem_singleton.mp h1]
              exact hnf
  | advance c =>
      simp only [stepEvent]
      have hsubP : ∀ kw ∈ (σ.accs.filter (eligibleB (σ.wm.max c))).map Prod.fst,
          kw ∈ σ.accs.map Prod.fst := by
        intro kw hkw
        exact (List.Sublist.map Prod.fst
          (List.filter_sublist σ.accs)).mem hkw
      have hsubN : ∀ kw ∈
          (σ.accs.filter (fun x => !(eligibleB (σ.wm.max c) x))).map Prod.fst,
          kw ∈ σ.accs.map Prod.fst := by
        intro kw hkw
        exact (List.Sublist.map Prod.fst
          (List.filter_sublist σ.accs)).mem hkw
      refine ⟨?_, ?_, ?_, ?_⟩
      · have hem' : List.map (fun e => (e.1, e.2.1)) σ.emitted = σ.fired := hem
        unfold emittedKeys
        simp only [List.map_append, List.map_map]
        rw [hem']
        simp [Function.comp]
      · show (σ.fired ++
            (σ.accs.filter (eligibleB (σ.wm.max c))).map Prod.fst).Nodup
        rw [List.nodup_append]
        refine ⟨hfn, ?_, ?_⟩
        · exact List.Nodup.sublist
            (List.Sublist.map Prod.fst (List.filter_sublist σ.accs)) han
        · intro kw hkw hkw2
          exact hdisj kw (hsubP kw hkw2) hkw
      · exact List.Nodup.sublist
          (List.Sublist.map Prod.fst (List.filter_sublist σ.accs)) han
      · intro kw hkw
        rw [List.mem_append]
        push_neg
        constructor
        · exact hdisj kw (hsubN kw hkw)
        · intro hkwP
          obtain ⟨en, henm, henk⟩ := List.mem_map.mp hkw
          obtain ⟨ep, hepm, hepk⟩ := List.mem_map.mp hkwP
          have hen := (List.mem_filter.mp henm).2
          have hep := (List.mem_filter.mp hepm).2
          have : eligibleB (σ.wm.max c) en = eligibleB (σ.wm.max c) ep :=
            eligibleB_congr (by rw [henk, hepk])
          simp [this, hep] at hen

theorem foldl_stepEvent_inv {R : Type} (extract : List ℚ → R) (size : Int)
    (events : List Event) (σ : PState R) (h : EngineInv σ) :
    EngineInv (events.foldl (stepEvent extract size) σ) := by
  induction events generalizing σ with
  | nil => exact h
  | cons e rest ih => exact ih _ (stepEvent_inv extract size σ e h)

theorem initState_inv (R : Type) : EngineInv (initState R) := by
  refine ⟨rfl, List.nodup_nil, List.nodup_nil, ?_⟩
  intro kw hkw
  simp [initState] at hkw

/-- C1: exactly-once firing — over any sequence of pipeline events, the
emission log of the pipeline contains at most one entry per (key, window)
pair: each (key, window) accumulator is finalized at most once. -/
theorem emit_at_most_once (events : List Event) :
    (emittedKeys (runMain events)).Nodup := by
  have h : EngineInv (runMain events) :=
    foldl_stepEvent_inv extract_output windowSizeSeconds events
      (initState Stats) (initState_inv Stats)
  obtain ⟨hem, hfn, -, -⟩ := h
  rw [hem]
  exact hfn

/-- C4: a record arriving for a (key, window) pair that has already fired
is dropped — the emission log, the accumulator store and the fired set are
unchanged (no re-emission, no resurrected accumulator) and the late-drop
counter is incremented; moreover no engine step ever rewrites an
already-emitted result (the old emission log is a prefix of the new one). -/
theorem late_record_never_changes_emitted (σ : PState Stats) (k : String)
    (v : ℚ) (t : Int)
    (h : (k, assign t windowSizeSeconds) ∈ σ.fired) :
    ((stepEvent extract_output windowSizeSeconds σ (.record k v t)).emitted =
        σ.emitted ∧
     (stepEvent extract_output windowSizeSeconds σ (.record k v t)).accs =
        σ.accs ∧
     (stepEvent extract_output windowSizeSeconds σ (.record k v t)).fired =
        σ.fired ∧
     (stepEvent extract_output windowSizeSeconds σ (.record k v t)).lateDropped =
        σ.lateDropped + 1) ∧
    ∀ (σ' : PState Stats) (e : Event),
      σ'.emitted <+: (stepEvent extract_output windowSizeSeconds σ' e).emitted := by
  constructor
  · simp [stepEvent, h]
  · intro σ' e
    cases e with
    | record k' v' t' =>
        simp only [stepEvent]
        split
        · exact List.prefix_refl _
        · exact List.prefix_refl _
    | advance c =>
        exact List.prefix_append _ _

/-- Witness for `late_record_never_changes_emitted`: a state whose fired
set contains `("A", [0, 60))` drops a late record with event time 10. -/
theorem late_record_never_changes_emitted_witness :
    (("A", assign 10 windowSizeSeconds) ∈
      [("A", assign 10 windowSizeSeconds)]) ∧
    (stepEvent extract_output windowSizeSeconds
      { wm := Time.fin 60, accs := [],
        fired := [("A", assign 10 windowSizeSeconds)], emitted := [],
        lateDropped := 0 }
      (.record "A" 21 10)).lateDropped = 0 + 1 :=
  ⟨by decide,
   (late_record_never_changes_emitted
     { wm := Time.fin 60, accs := [],
       fired := [("A", assign 10 windowSizeSeconds)], emitted := [],
       lateDropped := 0 }
     "A" 21 10 (by decide)).1.2.2.2⟩

theorem extract_output_perm {l1 l2 : List ℚ} (h : l1.Perm l2) :
    extract_output l1 = extract_output l2 := by
  have hlen := h.length_eq
  have hsum := h.sum_eq
  have hmean : meanQ l1 = meanQ l2 := by
    unfold meanQ
    rw [hsum, hlen]
  have hsq : (l1.map fun x => (x - meanQ l1) ^ 2).sum =
      (l2.map fun x => (x - meanQ l2) ^ 2).sum := by
    rw [hmean]
    exact List.Perm.sum_eq (List.Perm.map _ h)
  have hpop : popVarQ l1 = popVarQ l2 := by
    unfold popVarQ
    rw [hsq, hlen]
  have hsam : sampleVarQ l1 = sampleVarQ l2 := by
    unfold sampleVarQ
    rw [hsq, hlen]
  unfold extract_output tstdF variationF
  rw [hlen, hmean, hpop, hsam]

/-- C5 counterexample: `merge_accumulators` is list concatenation, which
is not commutative at the accumulator level — merging `[[1], [2]]` gives
`[1, 2]` while merging `[[2], [1]]` gives `[2, 1]`. -/
theorem merge_not_commutative :
    ¬ (merge_accumulators [[(1 : ℚ)], [2]] =
       merge_accumulators [[(2 : ℚ)], [1]]) := by
  decide

/-- C5 (amended): merging a singleton sequence of accumulators is the
identity, and merging two accumulators in either order yields the same
multiset of buffered values — the two results are permutations of each
other and`extract_output` agrees on them — though not the same list. -/
theorem merge_identity_and_comm_up_to_perm :
    (∀ a : List ℚ, merge_accumulators [a] = a) ∧
    (∀ a b : List ℚ,
      (merge_accumulators [a, b]).Perm (merge_accumulators [b, a]) ∧
      extract_output (merge_accumulators [a, b]) =
        extract_output (merge_accumulators [b, a])) := by
  refine ⟨fun a => by simp [merge_accumulators], ?_⟩
  intro a b
  have hp : (merge_accumulators [a, b]).Perm (merge_accumulators [b, a]) := by
    simp only [merge_accumulators, List.foldl_cons, List.foldl_nil,
      List.nil_append]
    exact List.perm_append_comm
  exact ⟨hp, extract_output_perm hp⟩

/-- C6: merging the singleton sequence holding the empty accumulator
gives the empty accumulator, and merging two singleton accumulators
equals adding the two values in sequence to a fresh accumulator. -/
theorem merge_create_add_laws :
    merge_accumulators [create_accumulator] = create_accumulator ∧
    ∀ x y : ℚ,
      merge_accumulators
          [add_input create_accumulator x, add_input create_accumulator y] =
        add_input (add_input create_accumulator x) y := by
  refine ⟨rfl, ?_⟩
  intro x y
  simp [merge_accumulators, add_input, create_accumulator]

/-- C7: the statistics reducer is order-independent — swapping the order
of two added values does not change the `extract_output` result, and more
generally any permutation of the buffered values leaves the
`extract_output` result unchanged. -/
theorem extract_order_independent :
    (∀ x y : ℚ,
      extract_output (add_input (add_input create_accumulator x) y) =
        extract_output (add_input (add_input create_accumulator y) x)) ∧
    (∀ l1 l2 : List ℚ, l1.Perm l2 →
      extract_output l1 = extract_output l2) := by
  refine ⟨?_, fun l1 l2 h => extract_output_perm h⟩
  intro x y
  show extract_output [x, y] = extract_output [y, x]
  exact extract_output_perm (List.Perm.swap y x [])

/-- Witness for `extract_order_independent`: the records `20, 21` arriving
in reversed order `21, 20`. -/
theorem extract_order_independent_witness :
    ([(20 : ℚ), 21].Perm [21, 20]) ∧
    extract_output [(20 : ℚ), 21] = extract_output [21, 20] :=
  ⟨by decide, extract_order_independent.2 _ _ (by decide)⟩

/-- C8: `extract_output` on the empty accumulator returns the record with
`count = 0` and the NaN sentinel in the mean, std_dev and variance
fields; the zero-count branch returns before any division is attempted,
so no division by zero is performed. -/
theorem extract_empty_is_nan_sentinel :
    extract_output create_accumulator =
      { count := 0, mean := .nan, std_dev := .nan, variance := .nan } := rfl

theorem popVarQ_nonneg (acc : List ℚ) : 0 ≤ popVarQ acc := by
  unfold popVarQ
  apply div_nonneg
  · apply List.sum_nonneg
    intro x hx
    obtain ⟨y, _, rfl⟩ := List.mem_map.mp hx
    positivity
  · positivity

theorem sampleVarQ_nonneg (acc : List ℚ) (h : 2 ≤ acc.length) :
    0 ≤ sampleVarQ acc := by
  unfold sampleVarQ
  apply div_nonneg
  · apply List.sum_nonneg
    intro x hx
    obtain ⟨y, _, rfl⟩ := List.mem_map.mp hx
    positivity
  · have : (2 : ℚ) ≤ (acc.length : ℚ) := by exact_mod_cast h
    linarith

/-- C9: for every non-empty accumulator with non-zero mean, the variance
field of `extract_output` is the squared coefficient of variation — the
population variance divided by the square of the mean — and on the
accumulator `[1, 2]` this differs from the square of the reported
std_dev field (`1/9` versus `1/2`). -/
theorem variance_is_squared_variation :
    (∀ acc : List ℚ, acc ≠ [] → meanQ acc ≠ 0 →
      (extract_output acc).variance =
        .fin ((popVarQ acc : ℝ) / ((meanQ acc : ℝ) ^ 2))) ∧
    (extract_output [(1 : ℚ), 2]).variance ≠
      ((extract_output [(1 : ℚ), 2]).std_dev).sq := by
  have main : ∀ acc : List ℚ, acc ≠ [] → meanQ acc ≠ 0 →
      (extract_output acc).variance =
        .fin ((popVarQ acc : ℝ) / ((meanQ acc : ℝ) ^ 2)) := by
    intro acc hne hmz
    have hlen : ¬ acc.length = 0 := by
      simpa [List.length_eq_zero] using hne
    have hpop : (0 : ℝ) ≤ (popVarQ acc : ℝ) := by
      exact_mod_cast popVarQ_nonneg acc
    simp only [extract_output, if_neg hlen, variationF, if_neg hmz, PFloat.sq]
    rw [div_pow, Real.sq_sqrt hpop]
  refine ⟨main, ?_⟩
  have h1 : (extract_output [(1 : ℚ), 2]).variance = .fin ((1 : ℝ) / 9) := by
    rw [main [(1 : ℚ), 2] (by simp) (by norm_num [meanQ])]
    have hp : popVarQ [(1 : ℚ), 2] = 1 / 4 := by norm_num [popVarQ, meanQ]
    have hm : meanQ [(1 : ℚ), 2] = 3 / 2 := by norm_num [meanQ]
    rw [hp, hm]
    norm_num
  have h2 : ((extract_output [(1 : ℚ), 2]).std_dev).sq = .fin ((1 : ℝ) / 2) := by
    have hs : sampleVarQ [(1 : ℚ), 2] = 1 / 2 := by
      norm_num [sampleVarQ, meanQ]
    have hl1 : ¬ [(1 : ℚ), 2].length = 1 := by simp
    have hl0 : ¬ [(1 : ℚ), 2].length = 0 := by simp
    simp only [extract_output, if_neg hl0, tstdF, if_neg hl1, PFloat.sq, hs]
    rw [Real.sq_sqrt (by norm_num)]
    norm_num
  rw [h1, h2]
  simp only [ne_eq, PFloat.fin.injEq]
  norm_num

/-- Witness for `variance_is_squared_variation` at the accumulator
`[1, 2]`. -/
theorem variance_is_squared_variation_witness :
    (([(1 : ℚ), 2] ≠ []) ∧ meanQ [(1 : ℚ), 2] ≠ 0) ∧
    (extract_output [(1 : ℚ), 2]).variance =
      .fin ((popVarQ [(1 : ℚ), 2] : ℝ) / ((meanQ [(1 : ℚ), 2] : ℝ) ^ 2)) :=
  ⟨⟨by simp, by norm_num [meanQ]⟩,
   variance_is_squared_variation.1 [(1 : ℚ), 2] (by simp)
     (by norm_num [meanQ])⟩

/-- C10: on any non-empty accumulator whose values sum to zero the mean is
zero and the unguarded division inside `stats.variation` makes the
variance field a non-finite float — NaN when the population variance is
also zero, `+inf` otherwise — while the count and mean fields are the
ordinary finite values and the std_dev field is still a finite number
whenever at least two values were buffered. -/
theorem zero_mean_variance_not_finite :
    (∀ acc : List ℚ, acc ≠ [] → acc.sum = 0 →
      (extract_output acc).count = acc.length ∧
      (extract_output acc).mean = .fin 0 ∧
      (2 ≤ acc.length → ∃ r : ℝ, (extract_output acc).std_dev = .fin r) ∧
      ¬ ((extract_output acc).variance).IsFinite) ∧
    ¬ ((extract_output [(1 : ℚ), -1]).variance).IsFinite := by
  have main : ∀ acc : List ℚ, acc ≠ [] → acc.sum = 0 →
      (extract_output acc).count = acc.length ∧
      (extract_output acc).mean = .fin 0 ∧
      (2 ≤ acc.length → ∃ r : ℝ, (extract_output acc).std_dev = .fin r) ∧
      ¬ ((extract_output acc).variance).IsFinite := by
    intro acc hne hsum
    have hlen : ¬ acc.length = 0 := by
      simpa [List.length_eq_zero] using hne
    have hmz : meanQ acc = 0 := by
      unfold meanQ
      rw [hsum]
      simp
    refine ⟨?_, ?_, ?_, ?_⟩
    · simp [extract_output, hne]
    · simp [extract_output, hne, hmz]
    · intro h2
      have hl1 : ¬ acc.length = 1 := by omega
      simp only [extract_output, if_neg hlen, tstdF, if_neg hl1]
      exact ⟨_, rfl⟩
    · simp only [extract_output, if_neg hlen, variationF, if_pos hmz]
      by_cases hpv : popVarQ acc = 0
      · simp [if_pos hpv, PFloat.sq, PFloat.IsFinite]
      · simp [if_neg hpv, PFloat.sq, PFloat.IsFinite]
  refine ⟨main, ?_⟩
  exact (main [(1 : ℚ), -1] (by simp) (by simp)).2.2.2

/-- Witness for `zero_mean_variance_not_finite` at the accumulator
`[1, -1]`, whose values sum to zero. -/
theorem zero_mean_variance_not_finite_witness :
    (([(1 : ℚ), -1] ≠ []) ∧ [(1 : ℚ), -1].sum = 0) ∧
    ¬ ((extract_output [(1 : ℚ), -1]).variance).IsFinite :=
  ⟨⟨by simp, by simp⟩,
   (zero_mean_variance_not_finite.1 [(1 : ℚ), -1] (by simp) (by simp)).2.2.2⟩

end SensorPipeline
